import Mathlib

/-!
Verification development for the loxMqttRelay ingress pipeline.

Shallow embedding of the relevant program functions:
* `miniserver_data_processor.py` — topic normalization, boolean
  canonicalization, JSON flattening/expansion, and the `process_data`
  filter pipeline;
* `udp_handler.py` — the UDP message parser and the datagram decode;
* `mqtt_client.py` — the inbound payload decode;
* `miniserver_sync.py` — the `sps0.LoxCC` header parsing, the legacy
  nibble decompressor, the CRC32 check, and the whitelist restore logic
  of `main.handle_miniserver_sync`;
* `config.py` — the field-to-section mapping and `update_field`.

Machine integers are modelled as `Nat` (all byte values are `< 256` by
construction of the inputs; masks are written explicitly where the code
masks). Python strings are modelled as `String`/`List Char`; Python byte
strings as `List Nat`. Fallible code returns `Option`.
-/

set_option maxRecDepth 8192

namespace LoxRelay

/-! ## Python string primitives

Character-level models of the Python `str` operations the code uses.
Python's default `str.split`/`str.strip` whitespace set is larger than
ASCII; the ASCII subset used here covers every character the program's
protocol strings can contain. -/

/-- Python `str` whitespace (ASCII subset): space, tab, newline, carriage
return, vertical tab, form feed. -/
def isPySpace (c : Char) : Bool :=
  c = ' ' || c = '\t' || c = '\n' || c = '\r' || c = '\x0b' || c = '\x0c'

/-- Drop leading Python whitespace. -/
def dropLeadWs (l : List Char) : List Char := l.dropWhile isPySpace

/-- Drop trailing Python whitespace (Python `str.rstrip()`). -/
def dropTrailWs (l : List Char) : List Char :=
  (l.reverse.dropWhile isPySpace).reverse

/-- Python `str.strip()`. -/
def pyStrip (l : List Char) : List Char := dropTrailWs (dropLeadWs l)

/-- Accumulator worker for `pySplitWs`: `acc` holds the characters of the
token currently being read, in reverse order. -/
def pySplitWsAux : List Char → List Char → List (List Char)
  | [], acc => if acc.isEmpty then [] else [acc.reverse]
  | c :: rest, acc =>
    if isPySpace c then
      if acc.isEmpty then pySplitWsAux rest []
      else acc.reverse :: pySplitWsAux rest []
    else pySplitWsAux rest (c :: acc)

/-- Python `str.split()` with no argument: split on runs of whitespace,
no empty tokens. -/
def pySplitWs (l : List Char) : List (List Char) := pySplitWsAux l []

/-- Python `str.split(None, 1)`: skip leading whitespace, take the first
token, skip the following whitespace run; if anything remains it is the
second element, kept verbatim. -/
def pySplit1 (l : List Char) : List (List Char) :=
  let l' := dropLeadWs l
  match l' with
  | [] => []
  | c :: rest =>
    let tok := c :: rest.takeWhile (fun d => !isPySpace d)
    let rem := dropLeadWs (rest.dropWhile (fun d => !isPySpace d))
    match rem with
    | [] => [tok]
    | _ => [tok, rem]

/-- Python `str.lower()` (ASCII). -/
def pyLower (l : List Char) : List Char := l.map Char.toLower

/-- Python `" ".join(tokens)`. -/
def joinSpace : List (List Char) → List Char
  | [] => []
  | [t] => t
  | t :: rest => t ++ ' ' :: joinSpace rest

/-- Python `c in s` for a single character. -/
def pyContainsChar (l : List Char) (c : Char) : Bool := l.elem c

/-- Python `s.find(c)` for a single character: index of the first
occurrence, or failure. -/
def pyFindChar : List Char → Char → Option Nat
  | [], _ => none
  | c :: rest, t =>
    if c = t then some 0
    else (pyFindChar rest t).map (· + 1)

/-! ## Value model and boolean canonicalization

`PyVal` models the Python scalar values that flow through the pipeline:
the raw payload string, and the scalars produced by `orjson.loads`
(strings, booleans, integers, `None`). JSON floating-point numbers are
outside the model (no claim depends on them). -/

inductive PyVal where
  | str (s : String)
  | bool (b : Bool)
  | int (n : Int)
  | none
  deriving DecidableEq, Repr

/-- Python truthiness for the modelled scalars. -/
def pyTruthy : PyVal → Bool
  | .str s => s ≠ ""
  | .bool b => b
  | .int n => n ≠ 0
  | .none => false

/-- Python `str(val)` for the modelled scalars. -/
def pyStr : PyVal → String
  | .str s => s
  | .bool b => if b then "True" else "False"
  | .int n => toString n
  | .none => "None"

/-- `BOOLEAN_MAPPING` from `miniserver_data_processor.py`. -/
def BOOLEAN_MAPPING : List (String × String) :=
  [("true", "1"), ("yes", "1"), ("on", "1"), ("enabled", "1"),
   ("enable", "1"), ("1", "1"), ("check", "1"), ("checked", "1"),
   ("select", "1"), ("selected", "1"),
   ("false", "0"), ("no", "0"), ("off", "0"), ("disabled", "0"),
   ("disable", "0"), ("0", "0")]

/-- `MiniserverDataProcessor._convert_boolean`: falsy inputs are returned
unchanged; otherwise `str(val).strip().lower()` is looked up in
`BOOLEAN_MAPPING`, and on a miss the input is returned unchanged. -/
def convertBoolean (val : PyVal) : PyVal :=
  if !pyTruthy val then val
  else
    let normalized : String := ⟨pyLower (pyStrip (pyStr val).data)⟩
    match (BOOLEAN_MAPPING.lookup normalized) with
    | some c => .str c
    | Option.none => val

/-! ## Topic normalization -/

/-- Python `s.replace(a, b)` for single characters. -/
def pyReplaceChar (l : List Char) (a b : Char) : List Char :=
  l.map fun c => if c = a then b else c

/-- `MiniserverDataProcessor.normalize_topic`: fast path when the topic
contains neither `/` nor `%`, otherwise
`topic.replace('/', '_').replace('%', '_')`. -/
def normalizeTopic (t : String) : String :=
  if !(pyContainsChar t.data '/') && !(pyContainsChar t.data '%') then t
  else ⟨pyReplaceChar (pyReplaceChar t.data '/' '_') '%' '_'⟩

lemma mem_pyReplaceChar {l : List Char} {a b c : Char}
    (hc : c ∈ pyReplaceChar l a b) : c = b ∨ (c ∈ l ∧ c ≠ a) := by
  unfold pyReplaceChar at hc
  rcases List.mem_map.mp hc with ⟨d, hd, hdc⟩
  by_cases h : d = a
  · simp [h] at hdc; exact Or.inl hdc.symm
  · simp [h] at hdc; exact Or.inr ⟨hdc ▸ hd, hdc ▸ h⟩

lemma normalized_no_slash_percent (t : String) (c : Char)
    (hc : c ∈ pyReplaceChar (pyReplaceChar t.data '/' '_') '%' '_') :
    c ≠ '/' ∧ c ≠ '%' := by
  rcases mem_pyReplaceChar hc with h | ⟨hmem, hne⟩
  · subst h; exact ⟨by decide, by decide⟩
  · rcases mem_pyReplaceChar hmem with h | ⟨_, hne2⟩
    · subst h; exact ⟨by decide, hne⟩
    · exact ⟨hne2, hne⟩

/-- CLAIM C9 — Topic normalization is idempotent: for every topic `t`,
`normalize(normalize(t)) = normalize(t)`, where `normalize` replaces
every `/` and every `%` with `_`. -/
theorem C9_normalize_idempotent (t : String) :
    normalizeTopic (normalizeTopic t) = normalizeTopic t := by
  unfold normalizeTopic
  by_cases h : !(pyContainsChar t.data '/') && !(pyContainsChar t.data '%')
  · simp [h]
  · simp only [h, if_false, Bool.false_eq_true]
    have hdata : (String.mk (pyReplaceChar (pyReplaceChar t.data '/' '_') '%' '_')).data
        = pyReplaceChar (pyReplaceChar t.data '/' '_') '%' '_' := rfl
    have hno : !(pyContainsChar (pyReplaceChar (pyReplaceChar t.data '/' '_') '%' '_') '/')
        && !(pyContainsChar (pyReplaceChar (pyReplaceChar t.data '/' '_') '%' '_') '%') := by
      have h1 : pyContainsChar (pyReplaceChar (pyReplaceChar t.data '/' '_') '%' '_') '/' = false := by
        by_contra hcon
        have : '/' ∈ pyReplaceChar (pyReplaceChar t.data '/' '_') '%' '_' := by
          have := Bool.of_not_eq_false hcon
          exact List.mem_of_elem_eq_true this
        exact (normalized_no_slash_percent t '/' this).1 rfl
      have h2 : pyContainsChar (pyReplaceChar (pyReplaceChar t.data '/' '_') '%' '_') '%' = false := by
        by_contra hcon
        have : '%' ∈ pyReplaceChar (pyReplaceChar t.data '/' '_') '%' '_' := by
          have := Bool.of_not_eq_false hcon
          exact List.mem_of_elem_eq_true this
        exact (normalized_no_slash_percent t '%' this).2 rfl
      simp [h1, h2]
    simp [hdata, hno]

/-! ## JSON model and flattening

`Json` models the values produced by `orjson.loads`. The parse itself is
an external library call; pipeline functions that consume a parse result
take the parsed value (or `none` for a parse failure) as an argument.
Numbers are modelled as integers; no claim depends on float values.
`JsonObj`/`JsonList` are explicit so that all recursions are structural. -/

mutual
inductive Json where
  | null : Json
  | bool (b : Bool) : Json
  | num (n : Int) : Json
  | str (s : String) : Json
  | arr (xs : JsonList) : Json
  | obj (kvs : JsonObj) : Json
  deriving DecidableEq, Repr

inductive JsonList where
  | nil : JsonList
  | cons (hd : Json) (tl : JsonList) : JsonList
  deriving DecidableEq, Repr

inductive JsonObj where
  | nil : JsonObj
  | cons (k : String) (v : Json) (tl : JsonObj) : JsonObj
  deriving DecidableEq, Repr
end

instance : Inhabited Json := ⟨Json.null⟩
instance : Inhabited JsonList := ⟨JsonList.nil⟩
instance : Inhabited JsonObj := ⟨JsonObj.nil⟩

/-- The Python scalar that `orjson` produced for a JSON leaf (arrays and
objects never reach this conversion: `flatten_dict` recurses into them). -/
def pyOfJson : Json → PyVal
  | .null => .none
  | .bool b => .bool b
  | .num n => .int n
  | .str s => .str s
  | .arr _ => .none
  | .obj _ => .none

/-- The key-building rule of `flatten_dict`:
`new_key = f"{parent_key}/{k}" if parent_key else k`. -/
def joinStep (parent k : String) : String :=
  if parent = "" then k else parent ++ "/" ++ k

/-- Python `dict(items)` update step: a repeated key keeps its first
position and takes the latest value. -/
def pyDictUpd (acc : List (String × Json)) (k : String) (v : Json) :
    List (String × Json) :=
  if acc.any (fun p => p.1 = k) then
    acc.map (fun p => if p.1 = k then (k, v) else p)
  else acc ++ [(k, v)]

/-- Python `dict(items)` as an ordered association list. -/
def pyDictOfList (l : List (String × Json)) : List (String × Json) :=
  l.foldl (fun acc p => pyDictUpd acc p.1 p.2) []

mutual
/-- The `items` list built by `MiniserverDataProcessor.flatten_dict` for
a dictionary, before the final `dict(items)`. -/
def flattenItems : JsonObj → String → List (String × Json)
  | .nil, _ => []
  | .cons k v tl, parent =>
    flattenVal v (joinStep parent k) ++ flattenItems tl parent

/-- Handling of one value inside `flatten_dict`: dictionaries and lists
are recursively flattened (each recursive result passes through
`dict(items)`, as in the source), scalars become single items. -/
def flattenVal : Json → String → List (String × Json)
  | .obj kvs, newKey => pyDictOfList (flattenItems kvs newKey)
  | .arr xs, newKey => pyDictOfList (flattenArr 0 xs newKey)
  | v, newKey => [(newKey, v)]

/-- The `items` list for a list value, which `flatten_dict` converts to
`{str(i): v}` before flattening. -/
def flattenArr : Nat → JsonList → String → List (String × Json)
  | _, .nil, _ => []
  | i, .cons hd tl, parent =>
    flattenVal hd (joinStep parent (toString i)) ++ flattenArr (i + 1) tl parent
end

/-- `MiniserverDataProcessor.flatten_dict` on a parsed JSON object with
the default `parent_key=''`. -/
def flattenDict (kvs : JsonObj) : List (String × Json) :=
  pyDictOfList (flattenItems kvs "")

/-- `MiniserverDataProcessor.expand_json`: `parsed` is the result of
`orjson.loads(val)` (`none` models a parse failure). A parsed dict is
flattened and each flat key is prefixed with `f"{topic}/"`; any other
outcome yields the original `(topic, val)` pair. -/
def expandJson (topic : String) (val : String) (parsed : Option Json) :
    List (String × PyVal) :=
  match parsed with
  | some (.obj kvs) =>
    (flattenDict kvs).map (fun p => (topic ++ "/" ++ p.1, pyOfJson p.2))
  | some _ => [(topic, .str val)]
  | none => [(topic, .str val)]

/-! ## The process_data pipeline -/

/-- A compiled matcher (`Optional[Pattern]` plus `.search`): `none` when
the filter list was empty or all-invalid. The regex engine itself is
external; a compiled pattern is modelled as its unanchored-search
predicate. -/
def matchesOpt (m : Option (String → Bool)) (s : String) : Bool :=
  match m with
  | some f => f s
  | none => false

/-- The processor state used by `process_data`: the compiled subscription
filter, the topic whitelist, the compiled do-not-forward filter, and the
`expand_json` configuration flag. -/
structure ProcState where
  subFilter : Option (String → Bool)
  whitelist : List String
  doNotForward : Option (String → Bool)
  expandJsonFlag : Bool

/-- `MiniserverDataProcessor.is_in_whitelist`: membership of the
normalized topic in the whitelist. -/
def isInWhitelist (st : ProcState) (topic : String) : Bool :=
  st.whitelist.contains (normalizeTopic topic)

/-- The final-filtering loop of `process_data` (source lines 176–199):
per pair, `continue` on the whitelist test, then on the second-pass
subscription filter, `elif` on the do-not-forward filter; survivors are
appended as `(topic, _convert_boolean(value))`. -/
def finalFiltering (st : ProcState) :
    List (String × PyVal) → List (String × PyVal)
  | [] => []
  | (topic, value) :: rest =>
    if !st.whitelist.isEmpty && !isInWhitelist st topic then
      finalFiltering st rest
    else if matchesOpt st.subFilter topic then
      finalFiltering st rest
    else if matchesOpt st.doNotForward topic then
      finalFiltering st rest
    else (topic, convertBoolean value) :: finalFiltering st rest

/-- `MiniserverDataProcessor.process_data`. The optional debug publish of
processed topics is an outbound side effect that does not alter the
returned list and is not modelled. -/
def processData (st : ProcState) (topic message : String)
    (parsed : Option Json) : List (String × PyVal) :=
  if matchesOpt st.subFilter topic then []
  else
    let processedTuples :=
      if st.expandJsonFlag then expandJson topic message parsed
      else [(topic, .str message)]
    finalFiltering st processedTuples

/-! ## Spec-side final gate (claim C1)

The spec's per-pair gate, written exactly in the spec's order: whitelist
(drop iff the whitelist is non-empty and the normalized path is not in
it), then subscription filter, then do-not-forward; survivors are emitted
as `(path, canonicalize(value))`. -/

def specFinalGate (st : ProcState) (p : String × PyVal) :
    Option (String × PyVal) :=
  if st.whitelist ≠ [] ∧ ¬ st.whitelist.contains (normalizeTopic p.1) then none
  else if matchesOpt st.subFilter p.1 then none
  else if matchesOpt st.doNotForward p.1 then none
  else some (p.1, convertBoolean p.2)

lemma finalFiltering_eq_filterMap (st : ProcState)
    (pairs : List (String × PyVal)) :
    finalFiltering st pairs = pairs.filterMap (specFinalGate st) := by
  induction pairs with
  | nil => rfl
  | cons p rest ih =>
    obtain ⟨topic, value⟩ := p
    rw [List.filterMap_cons]
    by_cases hw : st.whitelist = []
    · have hw' : st.whitelist.isEmpty = true := by simp [hw]
      simp only [finalFiltering, specFinalGate, hw', isInWhitelist]
      simp only [hw, ne_eq, not_true_eq_false, false_and, if_false,
        Bool.not_true, Bool.false_and, Bool.false_eq_true, if_false]
      by_cases hs : matchesOpt st.subFilter topic
      · simp [hs, ih]
      · by_cases hd : matchesOpt st.doNotForward topic
        · simp [hs, hd, ih]
        · simp [hs, hd, ih]
    · have hw' : st.whitelist.isEmpty = false := by
        simpa [List.isEmpty_iff] using hw
      by_cases hm : st.whitelist.contains (normalizeTopic topic)
      · simp only [finalFiltering, specFinalGate, hw', isInWhitelist]
        simp only [hm, Bool.not_true, Bool.and_false, Bool.false_eq_true,
          if_false, not_true_eq_false, and_false, Bool.not_false,
          Bool.and_true, ne_eq, hw, not_false_iff, true_and, if_false]
        by_cases hs : matchesOpt st.subFilter topic
        · simp [hs, ih]
        · by_cases hd : matchesOpt st.doNotForward topic
          · simp [hs, hd, ih]
          · simp [hs, hd, ih]
      · have hnm : normalizeTopic topic ∉ st.whitelist := by
          simpa using hm
        simp only [finalFiltering, specFinalGate, hw', isInWhitelist]
        simp [hm, hw, hnm, ih]

/-- CLAIM C1 — In the per-pair final gate of `process_data`, each
expanded pair goes through the three drop tests in the order: whitelist
membership (drop iff the whitelist is non-empty and the normalized path
is not in it), then the second-pass subscription filter, then the
do-not-forward filter; every surviving pair is emitted as
`(path, canonicalize(value))`. Stated as: after the first-pass filter,
`process_data` equals `filterMap` of the spec-ordered gate over the
expansion result. -/
theorem C1_final_gate_order (st : ProcState) (topic message : String)
    (parsed : Option Json) :
    processData st topic message parsed =
      if matchesOpt st.subFilter topic then []
      else
        (if st.expandJsonFlag then expandJson topic message parsed
         else [(topic, .str message)]).filterMap (specFinalGate st) := by
  unfold processData
  by_cases h : matchesOpt st.subFilter topic
  · simp [h]
  · simp [h, finalFiltering_eq_filterMap]

/-- CLAIM C2 — If the compiled subscription filter matches the topic,
`process_data` returns the empty sequence, regardless of the payload and
of the `expand_json` setting. -/
theorem C2_first_pass_filter (st : ProcState) (topic message : String)
    (parsed : Option Json) (h : matchesOpt st.subFilter topic = true) :
    processData st topic message parsed = [] := by
  simp [processData, h]

/-- Witness for C2 at a concrete state and topic: a subscription filter
that matches everything drops the message `("ignore/x", "v")`. -/
theorem C2_first_pass_filter_witness :
    processData ⟨some (fun _ => true), [], Option.none, true⟩
      "ignore/x" "v" Option.none = [] :=
  C2_first_pass_filter ⟨some (fun _ => true), [], Option.none, true⟩
    "ignore/x" "v" Option.none rfl

/-! ## Leaves of a JSON value (spec side, claim C3)

The spec phrases expansion as "one pair per leaf of `o`, with paths
formed by joining `t` and the leaf's key chain with `/`". `leavesJ`
computes the leaf list with its chain of object keys and array indices;
`slashJoin` is the claimed `/`-joining. -/

mutual
def leavesJ : Json → List (List String × Json)
  | .obj kvs => leavesObj kvs
  | .arr xs => leavesArr 0 xs
  | v => [([], v)]

def leavesObj : JsonObj → List (List String × Json)
  | .nil => []
  | .cons k v tl => ((leavesJ v).map fun p => (k :: p.1, p.2)) ++ leavesObj tl

def leavesArr : Nat → JsonList → List (List String × Json)
  | _, .nil => []
  | i, .cons hd tl =>
    ((leavesJ hd).map fun p => (toString i :: p.1, p.2)) ++ leavesArr (i + 1) tl
end

/-- The suffix of a `/`-join: `"/k1/k2/…"`. -/
def slashTail : List String → String
  | [] => ""
  | k :: rest => "/" ++ k ++ slashTail rest

/-- Joining a key chain with `/` (the spec's claimed path form). -/
def slashJoin : List String → String
  | [] => ""
  | k :: rest => k ++ slashTail rest

/-- The flattened key a chain produces under a given parent key, by the
source's key-building rule. -/
def joinUnder (parent : String) (chain : List String) : String :=
  chain.foldl joinStep parent

/-! String helpers (data-level). -/

lemma strEqOfData {p q : String} (h : p.data = q.data) : p = q := by
  cases p; cases q; exact congrArg String.mk h

lemma strAppend_data (p q : String) : (p ++ q).data = p.data ++ q.data := rfl

lemma strAppend_ne (p q : String) (hp : p ≠ "") : p ++ q ≠ "" := by
  intro h
  apply hp
  apply strEqOfData
  have := congrArg String.data h
  rw [strAppend_data] at this
  rcases List.append_eq_nil.mp this with ⟨h1, _⟩
  simpa using h1

lemma strAppend_assoc (p q r : String) : p ++ q ++ r = p ++ (q ++ r) := by
  apply strEqOfData
  simp [strAppend_data, List.append_assoc]

lemma joinUnder_cons (parent k : String) (c : List String) :
    joinUnder parent (k :: c) = joinUnder (joinStep parent k) c := rfl

lemma joinUnder_of_ne (c : List String) :
    ∀ p : String, p ≠ "" → joinUnder p c = p ++ slashTail c := by
  induction c with
  | nil => intro p _; show p = p ++ "" ; exact (strEqOfData (by simp [strAppend_data])).symm
  | cons k rest ih =>
    intro p hp
    rw [joinUnder_cons]
    have hstep : joinStep p k = p ++ "/" ++ k := by simp [joinStep, hp]
    have hne : joinStep p k ≠ "" := by
      rw [hstep]; exact strAppend_ne _ _ (strAppend_ne _ _ hp)
    rw [ih _ hne, hstep, slashTail, strAppend_assoc, strAppend_assoc]
    simp [strAppend_assoc]

lemma joinUnder_head_ne (k : String) (c : List String) (hk : k ≠ "") :
    joinUnder "" (k :: c) = slashJoin (k :: c) := by
  rw [joinUnder_cons]
  have : joinStep "" k = k := by simp [joinStep]
  rw [this, joinUnder_of_ne c k hk, slashJoin]

/-! `dict(items)` is the identity on lists with pairwise distinct keys. -/

lemma pyDictFold_eq_append (l : List (String × Json)) :
    ∀ acc : List (String × Json),
      ((acc ++ l).map Prod.fst).Nodup →
      l.foldl (fun acc p => pyDictUpd acc p.1 p.2) acc = acc ++ l := by
  induction l with
  | nil => intro acc _; simp
  | cons p rest ih =>
    intro acc hnd
    obtain ⟨k, v⟩ := p
    have hk : ¬ acc.any (fun q => q.1 = k) := by
      intro hany
      rcases List.any_eq_true.mp hany with ⟨q, hq, hqk⟩
      have hqk' : q.1 = k := by simpa using hqk
      have h1 : q.1 ∈ (acc ++ (k, v) :: rest).map Prod.fst :=
        List.mem_map_of_mem _ (List.mem_append_left _ hq)
      have hdup : ¬ ((acc ++ (k, v) :: rest).map Prod.fst).Nodup := by
        rw [List.map_append]
        intro hnodup
        have hdisj := List.disjoint_of_nodup_append hnodup
        exact hdisj (List.mem_map_of_mem _ hq) (by simp [hqk'])
      exact hdup hnd
    have hupd : pyDictUpd acc k v = acc ++ [(k, v)] := by
      simp only [pyDictUpd]
      rw [if_neg hk]
    simp only [List.foldl_cons, hupd]
    have hnd' : (((acc ++ [(k, v)]) ++ rest).map Prod.fst).Nodup := by
      simpa [List.append_assoc] using hnd
    rw [ih _ hnd']
    simp

lemma pyDictOfList_eq_self (l : List (String × Json))
    (h : (l.map Prod.fst).Nodup) : pyDictOfList l = l := by
  have := pyDictFold_eq_append l [] (by simpa using h)
  simpa [pyDictOfList] using this

lemma map_congr_mem {α β : Type} (l : List α) (f g : α → β)
    (h : ∀ a ∈ l, f a = g a) : l.map f = l.map g := by
  induction l with
  | nil => rfl
  | cons a rest ih =>
    simp only [List.map_cons, h a (by simp)]
    rw [ih (fun a ha => h a (by simp [ha]))]

/-! The flattening of a value equals its leaf list with keys built by the
source's key rule, whenever those keys are pairwise distinct (so that
every `dict(items)` along the way is the identity). -/

mutual
theorem flattenVal_leaves (v : Json) (parent : String)
    (h : ((leavesJ v).map fun p => joinUnder parent p.1).Nodup) :
    flattenVal v parent = (leavesJ v).map fun p => (joinUnder parent p.1, p.2) := by
  cases v with
  | obj kvs =>
    have hitems := flattenItems_leaves kvs parent (by simpa [leavesJ] using h)
    have hkeys : ((flattenItems kvs parent).map Prod.fst).Nodup := by
      rw [hitems, List.map_map]
      simpa [leavesJ, Function.comp] using h
    simp only [flattenVal, leavesJ]
    rw [pyDictOfList_eq_self _ hkeys, hitems]
  | arr xs =>
    have hitems := flattenArr_leaves 0 xs parent (by simpa [leavesJ] using h)
    have hkeys : ((flattenArr 0 xs parent).map Prod.fst).Nodup := by
      rw [hitems, List.map_map]
      simpa [leavesJ, Function.comp] using h
    simp only [flattenVal, leavesJ]
    rw [pyDictOfList_eq_self _ hkeys, hitems]
  | null => simp [flattenVal, leavesJ, joinUnder]
  | bool b => simp [flattenVal, leavesJ, joinUnder]
  | num n => simp [flattenVal, leavesJ, joinUnder]
  | str s => simp [flattenVal, leavesJ, joinUnder]

theorem flattenItems_leaves (kvs : JsonObj) (parent : String)
    (h : ((leavesObj kvs).map fun p => joinUnder parent p.1).Nodup) :
    flattenItems kvs parent =
      (leavesObj kvs).map fun p => (joinUnder parent p.1, p.2) := by
  cases kvs with
  | nil => simp [flattenItems, leavesObj]
  | cons k v tl =>
    have hsplit : ((leavesObj (.cons k v tl)).map fun p => joinUnder parent p.1)
        = ((leavesJ v).map fun p => joinUnder (joinStep parent k) p.1)
          ++ ((leavesObj tl).map fun p => joinUnder parent p.1) := by
      simp only [leavesObj, List.map_append, List.map_map]
      congr 1
    rw [hsplit] at h
    have hv := flattenVal_leaves v (joinStep parent k) (List.Nodup.of_append_left h)
    have htl := flattenItems_leaves tl parent (List.Nodup.of_append_right h)
    simp only [flattenItems, leavesObj, List.map_append, List.map_map]
    rw [hv, htl]
    congr 1

theorem flattenArr_leaves (i : Nat) (xs : JsonList) (parent : String)
    (h : ((leavesArr i xs).map fun p => joinUnder parent p.1).Nodup) :
    flattenArr i xs parent =
      (leavesArr i xs).map fun p => (joinUnder parent p.1, p.2) := by
  cases xs with
  | nil => simp [flattenArr, leavesArr]
  | cons hd tl =>
    have hsplit : ((leavesArr i (.cons hd tl)).map fun p => joinUnder parent p.1)
        = ((leavesJ hd).map fun p => joinUnder (joinStep parent (toString i)) p.1)
          ++ ((leavesArr (i + 1) tl).map fun p => joinUnder parent p.1) := by
      simp only [leavesArr, List.map_append, List.map_map]
      congr 1
    rw [hsplit] at h
    have hv := flattenVal_leaves hd (joinStep parent (toString i))
      (List.Nodup.of_append_left h)
    have htl := flattenArr_leaves (i + 1) tl parent (List.Nodup.of_append_right h)
    simp only [flattenArr, leavesArr, List.map_append, List.map_map]
    rw [hv, htl]
    congr 1
end

/-- Non-emptiness of the top-level keys of a parsed JSON object. With the
initial `parent_key=''`, a top-level empty key would restart the
key-building rule (`new_key = k` instead of `parent + '/' + k`) and break
the claimed `/`-joined path form. -/
def keysTopOk : JsonObj → Bool
  | .nil => true
  | .cons k _ tl => (k != "") && keysTopOk tl

lemma leavesObj_head (kvs : JsonObj) (htop : keysTopOk kvs = true) :
    ∀ p ∈ leavesObj kvs, ∃ k c, p.1 = k :: c ∧ k ≠ "" := by
  cases kvs with
  | nil => intro p hp; simp [leavesObj] at hp
  | cons k v tl =>
    intro p hp
    have hk : k ≠ "" ∧ keysTopOk tl = true := by
      have := htop
      simp [keysTopOk] at this
      exact this
    have hp' : (∃ a b, (a, b) ∈ leavesJ v ∧ (k :: a, b) = p) ∨ p ∈ leavesObj tl := by
      simpa [leavesObj] using hp
    rcases hp' with ⟨a, b, _, hq⟩ | hin
    · exact ⟨k, a, by rw [← hq], hk.1⟩
    · exact leavesObj_head tl hk.2 p hin

lemma leavesObj_join_eq (kvs : JsonObj) (htop : keysTopOk kvs = true) :
    ∀ p ∈ leavesObj kvs, joinUnder "" p.1 = slashJoin p.1 := by
  intro p hp
  rcases leavesObj_head kvs htop p hp with ⟨k, c, hchain, hk⟩
  rw [hchain]
  exact joinUnder_head_ne k c hk

/-- CLAIM C3 (amended) — For a JSON object `o` whose top-level keys are
non-empty and whose `/`-joined leaf paths are pairwise distinct,
`expand_json(t, serialize(o))` yields exactly one pair per leaf of `o`,
the pair's path being `t`, the object keys and the array indices of the
leaf's chain joined with `/`. (Without the two provisos the claim fails:
colliding joined paths are collapsed by `dict(items)`, and an empty
top-level key restarts the key-building rule.) -/
theorem C3_expand_one_pair_per_leaf (t val : String) (kvs : JsonObj)
    (htop : keysTopOk kvs = true)
    (hnd : ((leavesObj kvs).map fun p => slashJoin p.1).Nodup) :
    expandJson t val (some (.obj kvs)) =
      (leavesObj kvs).map fun p => (t ++ "/" ++ slashJoin p.1, pyOfJson p.2) := by
  have hpt := leavesObj_join_eq kvs htop
  have hnd' : ((leavesObj kvs).map fun p => joinUnder "" p.1).Nodup := by
    rw [map_congr_mem _ _ (fun p => slashJoin p.1) (fun p hp => hpt p hp)]
    exact hnd
  have hitems := flattenItems_leaves kvs "" hnd'
  have hkeys : ((flattenItems kvs "").map Prod.fst).Nodup := by
    rw [hitems, List.map_map]
    simpa [Function.comp] using hnd'
  show (flattenDict kvs).map (fun p => (t ++ "/" ++ p.1, pyOfJson p.2)) = _
  rw [flattenDict, pyDictOfList_eq_self _ hkeys, hitems, List.map_map]
  apply map_congr_mem
  intro p hp
  simp only [Function.comp]
  rw [hpt p hp]

/-- Witness for C3 at a concrete object
`{"key1": "v1", "nested": {"a": true}}` under topic `"top"`. -/
theorem C3_expand_one_pair_per_leaf_witness :
    expandJson "top" "p"
      (some (.obj (.cons "key1" (.str "v1")
        (.cons "nested" (.obj (.cons "a" (.bool true) .nil)) .nil)))) =
      [("top/key1", PyVal.str "v1"), ("top/nested/a", PyVal.bool true)] := by
  have h := C3_expand_one_pair_per_leaf "top" "p"
    (.cons "key1" (.str "v1")
      (.cons "nested" (.obj (.cons "a" (.bool true) .nil)) .nil))
    (by decide) (by decide)
  rw [h]
  decide

/-- Counterexample to C3 as stated: the object
`{"a": {"b": "x"}, "a/b": "y"}` has two leaves, but because the key
`"a/b"` contains `/`, both leaves flatten to the same path and
`dict(items)` collapses them — expansion yields a single pair (first
position, last value), not one pair per leaf. -/
theorem C3_counterexample :
    expandJson "t" "p"
      (some (.obj (.cons "a" (.obj (.cons "b" (.str "x") .nil))
        (.cons "a/b" (.str "y") .nil)))) = [("t/a/b", PyVal.str "y")] ∧
    (leavesObj (.cons "a" (.obj (.cons "b" (.str "x") .nil))
      (.cons "a/b" (.str "y") .nil))).length = 2 := by
  constructor
  · decide
  · decide

/-- CLAIM C4 (amended) — When `expand_json` produces a boolean leaf, the
canonicalization emits the string `"1"` for a `true` leaf; a `false`
leaf, however, is returned unchanged as the boolean itself (not `"0"`),
because `_convert_boolean` returns falsy inputs unmodified before the
lookup in the truthy/falsy table. -/
theorem C4_boolean_leaf_canonicalization (b : Bool) :
    convertBoolean (pyOfJson (Json.bool b)) =
      if b then PyVal.str "1" else PyVal.bool false := by
  cases b <;> decide

/-- Counterexample to C4 as stated: processing `{"k": false}` (no
filters, empty whitelist, `expand_json` on) emits the pair
`("t/k", False)` — the Python boolean unchanged — not the string `"0"`. -/
theorem C4_counterexample :
    processData ⟨Option.none, [], Option.none, true⟩ "t" "p"
      (some (.obj (.cons "k" (.bool false) .nil))) =
      [("t/k", PyVal.bool false)] ∧
    PyVal.bool false ≠ PyVal.str "0" := by
  constructor
  · decide
  · decide

/-! ## Inbound payload decoding (claim C5)

Both inbound paths decode payload bytes with `errors='ignore'`:
`mqtt_client._on_message` runs `payload.decode('utf-8', errors='ignore')`
and `UDPProtocol.datagram_received` runs
`data.decode('utf-8', errors='ignore')`. The decoder below models
CPython's UTF-8 decoder (maximal-subpart error ranges, surrogates and
overlong forms rejected, code points capped at `0x10FFFF`) with the error
handler as a parameter; output is the list of decoded code points. -/

inductive DecodePolicy where
  | ignore
  | replace
  deriving DecidableEq, Repr

/-- What the error handler inserts for one invalid subpart. -/
def errTok : DecodePolicy → List Nat
  | .ignore => []
  | .replace => [0xFFFD]

/-- A valid UTF-8 continuation byte. -/
def contOk (b : Nat) : Bool := 0x80 ≤ b && b ≤ 0xBF

/-- Valid second byte of a three-byte sequence (excludes overlong forms
for `0xE0` and surrogates for `0xED`). -/
def cont3Ok (b0 b1 : Nat) : Bool :=
  if b0 = 0xE0 then 0xA0 ≤ b1 && b1 ≤ 0xBF
  else if b0 = 0xED then 0x80 ≤ b1 && b1 ≤ 0x9F
  else contOk b1

/-- Valid second byte of a four-byte sequence (excludes overlong forms
for `0xF0` and post-`0x10FFFF` values for `0xF4`). -/
def cont4Ok (b0 b1 : Nat) : Bool :=
  if b0 = 0xF0 then 0x90 ≤ b1 && b1 ≤ 0xBF
  else if b0 = 0xF4 then 0x80 ≤ b1 && b1 ≤ 0x8F
  else contOk b1

/-- Fuel-indexed UTF-8 decode loop. Every step consumes at least one
byte, so `fuel = bytes.length` always suffices and the fuel-exhausted
branch is unreachable from the wrapper below. -/
def decodeUtf8Aux (pol : DecodePolicy) : Nat → List Nat → List Nat
  | _, [] => []
  | 0, _ :: _ => []
  | fuel + 1, b0 :: rest =>
    if b0 < 0x80 then b0 :: decodeUtf8Aux pol fuel rest
    else if 0xC2 ≤ b0 && b0 ≤ 0xDF then
      match rest with
      | [] => errTok pol
      | b1 :: rest1 =>
        if contOk b1 then
          ((b0 - 0xC0) * 0x40 + (b1 - 0x80)) :: decodeUtf8Aux pol fuel rest1
        else errTok pol ++ decodeUtf8Aux pol fuel rest
    else if 0xE0 ≤ b0 && b0 ≤ 0xEF then
      match rest with
      | [] => errTok pol
      | b1 :: rest1 =>
        if cont3Ok b0 b1 then
          match rest1 with
          | [] => errTok pol
          | b2 :: rest2 =>
            if contOk b2 then
              ((b0 - 0xE0) * 0x1000 + (b1 - 0x80) * 0x40 + (b2 - 0x80)) ::
                decodeUtf8Aux pol fuel rest2
            else errTok pol ++ decodeUtf8Aux pol fuel rest1
        else errTok pol ++ decodeUtf8Aux pol fuel rest
    else if 0xF0 ≤ b0 && b0 ≤ 0xF4 then
      match rest with
      | [] => errTok pol
      | b1 :: rest1 =>
        if cont4Ok b0 b1 then
          match rest1 with
          | [] => errTok pol
          | b2 :: rest2 =>
            if contOk b2 then
              match rest2 with
              | [] => errTok pol
              | b3 :: rest3 =>
                if contOk b3 then
                  ((b0 - 0xF0) * 0x40000 + (b1 - 0x80) * 0x1000 +
                    (b2 - 0x80) * 0x40 + (b3 - 0x80)) ::
                    decodeUtf8Aux pol fuel rest3
                else errTok pol ++ decodeUtf8Aux pol fuel rest2
            else errTok pol ++ decodeUtf8Aux pol fuel rest1
        else errTok pol ++ decodeUtf8Aux pol fuel rest
    else errTok pol ++ decodeUtf8Aux pol fuel rest

/-- Python `bytes.decode('utf-8', errors=...)` on the modelled policies. -/
def decodeUtf8 (pol : DecodePolicy) (bytes : List Nat) : List Nat :=
  decodeUtf8Aux pol bytes.length bytes

/-- The decode performed by `MQTTClient._on_message`
(`errors='ignore'`). -/
def mqttOnMessageDecode (payload : List Nat) : List Nat :=
  decodeUtf8 .ignore payload

/-- The decode performed by `UDPProtocol.datagram_received`
(`errors='ignore'`). -/
def udpDatagramDecode (data : List Nat) : List Nat :=
  decodeUtf8 .ignore data

lemma mem_errTok {pol : DecodePolicy} {cp : Nat} (h : cp ∈ errTok pol) :
    cp = 0xFFFD := by
  cases pol with
  | ignore => simp [errTok] at h
  | replace => simpa [errTok] using h

/-- A decoded code point is a Unicode scalar value. -/
def validScalar (cp : Nat) : Prop :=
  cp < 0x110000 ∧ ¬(0xD800 ≤ cp ∧ cp ≤ 0xDFFF)

lemma validScalar_errTok {pol : DecodePolicy} {cp : Nat}
    (h : cp ∈ errTok pol) : validScalar cp := by
  rw [mem_errTok h]
  exact ⟨by omega, by omega⟩

lemma decodeUtf8Aux_valid (pol : DecodePolicy) :
    ∀ (fuel : Nat) (bytes : List Nat),
      ∀ cp ∈ decodeUtf8Aux pol fuel bytes, validScalar cp := by
  intro fuel
  induction fuel with
  | zero =>
    intro bytes cp hcp
    cases bytes with
    | nil => simp [decodeUtf8Aux] at hcp
    | cons b0 rest => simp [decodeUtf8Aux] at hcp
  | succ fuel ih =>
    intro bytes cp hcp
    cases bytes with
    | nil => simp [decodeUtf8Aux] at hcp
    | cons b0 rest =>
      simp only [decodeUtf8Aux] at hcp
      by_cases h1 : b0 < 0x80
      · rw [if_pos h1] at hcp
        rcases List.mem_cons.mp hcp with h | h
        · subst h; exact ⟨by omega, by omega⟩
        · exact ih rest cp h
      · rw [if_neg h1] at hcp
        by_cases h2 : (0xC2 ≤ b0 && b0 ≤ 0xDF) = true
        · rw [if_pos h2] at hcp
          have hb : 0xC2 ≤ b0 ∧ b0 ≤ 0xDF := by simpa using h2
          cases rest with
          | nil => exact validScalar_errTok hcp
          | cons b1 rest1 =>
            simp only [] at hcp
            by_cases hc : contOk b1 = true
            · rw [if_pos hc] at hcp
              have hb1 : 0x80 ≤ b1 ∧ b1 ≤ 0xBF := by simpa [contOk] using hc
              rcases List.mem_cons.mp hcp with h | h
              · subst h; exact ⟨by omega, by omega⟩
              · exact ih rest1 cp h
            · rw [if_neg hc] at hcp
              rcases List.mem_append.mp hcp with h | h
              · exact validScalar_errTok h
              · exact ih _ cp h
        · rw [if_neg h2] at hcp
          by_cases h3 : (0xE0 ≤ b0 && b0 ≤ 0xEF) = true
          · rw [if_pos h3] at hcp
            have hb : 0xE0 ≤ b0 ∧ b0 ≤ 0xEF := by simpa using h3
            cases rest with
            | nil => exact validScalar_errTok hcp
            | cons b1 rest1 =>
              simp only [] at hcp
              by_cases hc1 : cont3Ok b0 b1 = true
              · rw [if_pos hc1] at hcp
                cases rest1 with
                | nil => exact validScalar_errTok hcp
                | cons b2 rest2 =>
                  simp only [] at hcp
                  by_cases hc2 : contOk b2 = true
                  · rw [if_pos hc2] at hcp
                    have hb2 : 0x80 ≤ b2 ∧ b2 ≤ 0xBF := by simpa [contOk] using hc2
                    rcases List.mem_cons.mp hcp with h | h
                    · subst h
                      by_cases he0 : b0 = 0xE0
                      · have hb1 : 0xA0 ≤ b1 ∧ b1 ≤ 0xBF := by
                          simpa [cont3Ok, he0] using hc1
                        subst he0
                        exact ⟨by omega, by omega⟩
                      · by_cases hed : b0 = 0xED
                        · have hb1 : 0x80 ≤ b1 ∧ b1 ≤ 0x9F := by
                            simpa [cont3Ok, hed, he0] using hc1
                          subst hed
                          exact ⟨by omega, by omega⟩
                        · have hb1 : 0x80 ≤ b1 ∧ b1 ≤ 0xBF := by
                            simpa [cont3Ok, he0, hed, contOk] using hc1
                          exact ⟨by omega, by omega⟩
                    · exact ih rest2 cp h
                  · rw [if_neg hc2] at hcp
                    rcases List.mem_append.mp hcp with h | h
                    · exact validScalar_errTok h
                    · exact ih _ cp h
              · rw [if_neg hc1] at hcp
                rcases List.mem_append.mp hcp with h | h
                · exact validScalar_errTok h
                · exact ih _ cp h
          · rw [if_neg h3] at hcp
            by_cases h4 : (0xF0 ≤ b0 && b0 ≤ 0xF4) = true
            · rw [if_pos h4] at hcp
              have hb : 0xF0 ≤ b0 ∧ b0 ≤ 0xF4 := by simpa using h4
              cases rest with
              | nil => exact validScalar_errTok hcp
              | cons b1 rest1 =>
                simp only [] at hcp
                by_cases hc1 : cont4Ok b0 b1 = true
                · rw [if_pos hc1] at hcp
                  cases rest1 with
                  | nil => exact validScalar_errTok hcp
                  | cons b2 rest2 =>
                    simp only [] at hcp
                    by_cases hc2 : contOk b2 = true
                    · rw [if_pos hc2] at hcp
                      have hb2 : 0x80 ≤ b2 ∧ b2 ≤ 0xBF := by
                        simpa [contOk] using hc2
                      cases rest2 with
                      | nil => exact validScalar_errTok hcp
                      | cons b3 rest3 =>
                        simp only [] at hcp
                        by_cases hc3 : contOk b3 = true
                        · rw [if_pos hc3] at hcp
                          have hb3 : 0x80 ≤ b3 ∧ b3 ≤ 0xBF := by
                            simpa [contOk] using hc3
                          rcases List.mem_cons.mp hcp with h | h
                          · subst h
                            by_cases hf0 : b0 = 0xF0
                            · have hb1 : 0x90 ≤ b1 ∧ b1 ≤ 0xBF := by
                                simpa [cont4Ok, hf0] using hc1
                              subst hf0
                              exact ⟨by omega, by omega⟩
                            · by_cases hf4 : b0 = 0xF4
                              · have hb1 : 0x80 ≤ b1 ∧ b1 ≤ 0x8F := by
                                  simpa [cont4Ok, hf4, hf0] using hc1
                                subst hf4
                                exact ⟨by omega, by omega⟩
                              · have hb1 : 0x80 ≤ b1 ∧ b1 ≤ 0xBF := by
                                  simpa [cont4Ok, hf0, hf4, contOk] using hc1
                                exact ⟨by omega, by omega⟩
                          · exact ih rest3 cp h
                        · rw [if_neg hc3] at hcp
                          rcases List.mem_append.mp hcp with h | h
                          · exact validScalar_errTok h
                          · exact ih _ cp h
                    · rw [if_neg hc2] at hcp
                      rcases List.mem_append.mp hcp with h | h
                      · exact validScalar_errTok h
                      · exact ih _ cp h
                · rw [if_neg hc1] at hcp
                  rcases List.mem_append.mp hcp with h | h
                  · exact validScalar_errTok h
                  · exact ih _ cp h
            · rw [if_neg h4] at hcp
              rcases List.mem_append.mp hcp with h | h
              · exact validScalar_errTok h
              · exact ih _ cp h

/-- CLAIM C5 (amended) — Both inbound decode sites (`_on_message` and
`datagram_received`) decode payload bytes with `errors='ignore'`:
invalid subparts are dropped, not replaced by replacement characters.
The decode is total and yields only Unicode scalar values, so processing
never aborts on binary payloads; the two sites use the same decode. -/
theorem C5_inbound_decode (bytes : List Nat) :
    (∀ cp ∈ mqttOnMessageDecode bytes, validScalar cp) ∧
    udpDatagramDecode bytes = mqttOnMessageDecode bytes := by
  constructor
  · intro cp hcp
    exact decodeUtf8Aux_valid .ignore bytes.length bytes cp hcp
  · rfl

/-- Counterexample to C5 as stated: on the payload `[0xFF, 0x41]` the
code's `errors='ignore'` decode drops the invalid byte and yields `"A"`,
while the claimed replacement-character decode would yield `"� A"`;
both inbound sites differ from the claimed behavior. -/
theorem C5_counterexample :
    mqttOnMessageDecode [0xFF, 0x41] = [0x41] ∧
    udpDatagramDecode [0xFF, 0x41] = [0x41] ∧
    decodeUtf8 .replace [0xFF, 0x41] = [0xFFFD, 0x41] ∧
    mqttOnMessageDecode [0xFF, 0x41] ≠ decodeUtf8 .replace [0xFF, 0x41] := by
  refine ⟨by decide, by decide, by decide, by decide⟩

/-! ## UDP message parsing (claim C6)

Embedding of `udp_handler.parse_udp_message`. -/

/-- `has_slash` from the source. -/
def hasSlash (t : List Char) : Bool := t.elem '/'

/-- The greedy topic-extension while-loop of `parse_udp_message` (source
lines 90–105), accumulating `topic_list` and returning it with the final
index `i`. The loop advances `i` by one per iteration and stops before
`n - 1`, so `fuel = n` always suffices; the wrapper passes that. -/
def greedyLoop (tokens : List (List Char)) (n : Nat) :
    Nat → Nat → List (List Char) → List (List Char) × Nat
  | 0, i, acc => (acc, i)
  | fuel + 1, i, acc =>
    if i < n - 1 then
      if hasSlash (tokens.getD i []) ||
          (hasSlash (tokens.getD (i - 1) []) &&
           hasSlash (tokens.getD (i + 1) [])) then
        greedyLoop tokens n fuel (i + 1) (acc ++ [tokens.getD i []])
      else (acc, i)
    else (acc, i)

/-- The body parsing of `parse_udp_message` after command extraction:
JSON-brace special case, then whitespace tokenization with the
two-token shortcut and the greedy topic split. -/
def parseBody (command rest : List Char) : Option (String × String × String) :=
  match pyFindChar rest '{' with
  | some bi =>
    let topicPart := dropTrailWs (rest.take bi)
    let payloadPart := pyStrip (rest.drop bi)
    if topicPart.isEmpty || payloadPart.isEmpty then none
    else some (⟨command⟩, ⟨topicPart⟩, ⟨payloadPart⟩)
  | none =>
    let tokens := pySplitWs rest
    if tokens.length < 2 then none
    else if tokens.length = 2 then
      some (⟨command⟩, ⟨tokens.getD 0 []⟩, ⟨tokens.getD 1 []⟩)
    else
      let n := tokens.length
      let r := greedyLoop tokens n n 1 [tokens.getD 0 []]
      let topicStr := pyStrip (joinSpace r.1)
      let payloadStr := pyStrip (joinSpace (tokens.drop r.2))
      if topicStr.isEmpty || payloadStr.isEmpty then none
      else some (⟨command⟩, ⟨topicStr⟩, ⟨payloadStr⟩)

/-- `udp_handler.parse_udp_message`. -/
def parseUdpMessage (s : String) : Option (String × String × String) :=
  let msg := pyStrip s.data
  if msg.isEmpty then none
  else
    match pySplit1 msg with
    | [] => none
    | first :: restParts =>
      let firstLower := pyLower first
      if firstLower = "publish".data || firstLower = "retain".data then
        match restParts with
        | [] => none
        | r :: _ =>
          let rest := pyStrip r
          if rest.isEmpty then none else parseBody firstLower rest
      else
        if msg.isEmpty then none else parseBody ("publish".data) msg

/-! Spec side of the greedy rule: the stop index, defined by the claim's
wording — starting at index 1, a token is included iff it contains `/` or
both its neighbours do; the first non-qualifying index (bounded by
`n - 1`) starts the payload. -/

/-- The claim's qualification test for the token at index `i`. -/
def qualifies (tokens : List (List Char)) (i : Nat) : Bool :=
  hasSlash (tokens.getD i []) ||
    (hasSlash (tokens.getD (i - 1) []) && hasSlash (tokens.getD (i + 1) []))

def greedyStopAux (tokens : List (List Char)) (n : Nat) : Nat → Nat → Nat
  | 0, i => i
  | fuel + 1, i =>
    if i < n - 1 then
      if qualifies tokens i then greedyStopAux tokens n fuel (i + 1) else i
    else i

/-- The index at which the greedy topic extension stops. -/
def greedyStop (tokens : List (List Char)) : Nat :=
  greedyStopAux tokens tokens.length tokens.length 1

lemma greedyStopAux_ge (tokens : List (List Char)) (n : Nat) :
    ∀ (fuel i : Nat), i ≤ greedyStopAux tokens n fuel i := by
  intro fuel
  induction fuel with
  | zero => intro i; simp [greedyStopAux]
  | succ fuel ih =>
    intro i
    simp only [greedyStopAux]
    by_cases h1 : i < n - 1
    · rw [if_pos h1]
      by_cases h2 : qualifies tokens i
      · rw [if_pos h2]; exact Nat.le_trans (Nat.le_succ i) (ih (i + 1))
      · rw [if_neg h2]
    · rw [if_neg h1]

lemma greedyStopAux_le (tokens : List (List Char)) (n : Nat) :
    ∀ (fuel i : Nat), i ≤ n - 1 → greedyStopAux tokens n fuel i ≤ n - 1 := by
  intro fuel
  induction fuel with
  | zero => intro i hi; simpa [greedyStopAux] using hi
  | succ fuel ih =>
    intro i hi
    simp only [greedyStopAux]
    by_cases h1 : i < n - 1
    · rw [if_pos h1]
      by_cases h2 : qualifies tokens i
      · rw [if_pos h2]; exact ih (i + 1) h1
      · rw [if_neg h2]; exact hi
    · rw [if_neg h1]; exact hi

lemma drop_eq_getD_cons (l : List (List Char)) :
    ∀ i : Nat, i < l.length → l.drop i = l.getD i [] :: l.drop (i + 1) := by
  induction l with
  | nil => intro i hi; simp at hi
  | cons x xs ih =>
    intro i hi
    cases i with
    | zero => simp
    | succ j =>
      have hj : j < xs.length := by simpa using hi
      simpa using ih j hj

/-- The accumulated greedy loop equals the segment of tokens between the
start index and the stop index, appended to the accumulator. -/
lemma greedyLoop_eq (tokens : List (List Char)) (n : Nat)
    (hn : n = tokens.length) :
    ∀ (fuel i : Nat) (acc : List (List Char)), i < n →
      greedyLoop tokens n fuel i acc =
        (acc ++ (tokens.drop i).take (greedyStopAux tokens n fuel i - i),
         greedyStopAux tokens n fuel i) := by
  intro fuel
  induction fuel with
  | zero => intro i acc _; simp [greedyLoop, greedyStopAux]
  | succ fuel ih =>
    intro i acc hi
    simp only [greedyLoop, greedyStopAux, qualifies]
    by_cases h1 : i < n - 1
    · rw [if_pos h1, if_pos h1]
      by_cases h2 : (hasSlash (tokens.getD i []) ||
          (hasSlash (tokens.getD (i - 1) []) &&
           hasSlash (tokens.getD (i + 1) []))) = true
      · rw [if_pos h2, if_pos h2]
        have hi1 : i + 1 < n := by omega
        rw [ih (i + 1) (acc ++ [tokens.getD i []]) hi1]
        have hstop := greedyStopAux_ge tokens n fuel (i + 1)
        set stop := greedyStopAux tokens n fuel (i + 1) with hstopdef
        have hdrop : tokens.drop i = tokens.getD i [] :: tokens.drop (i + 1) :=
          drop_eq_getD_cons tokens i (by omega)
        have htake : (tokens.drop i).take (stop - i) =
            tokens.getD i [] :: (tokens.drop (i + 1)).take (stop - (i + 1)) := by
          rw [hdrop]
          have : stop - i = (stop - (i + 1)) + 1 := by omega
          rw [this, List.take_succ_cons]
        rw [htake]
        simp
      · rw [if_neg h2, if_neg h2]
        simp
    · rw [if_neg h1, if_neg h1]
      simp

/-! Tokens produced by Python `split()` are non-empty and contain no
whitespace; hence `" ".join` of them is already stripped. -/

lemma pySplitWsAux_good :
    ∀ (l acc : List Char), (∀ c ∈ acc, isPySpace c = false) →
      ∀ t ∈ pySplitWsAux l acc, t ≠ [] ∧ ∀ c ∈ t, isPySpace c = false := by
  intro l
  induction l with
  | nil =>
    intro acc hacc t ht
    simp only [pySplitWsAux] at ht
    by_cases h : acc.isEmpty
    · rw [if_pos h] at ht; simp at ht
    · rw [if_neg h] at ht
      have : t = acc.reverse := by simpa using ht
      subst this
      refine ⟨?_, ?_⟩
      · intro hnil
        exact h (by simpa [List.isEmpty_iff] using
          (List.reverse_eq_nil_iff.mp hnil))
      · intro c hc
        exact hacc c (List.mem_reverse.mp hc)
  | cons d rest ih =>
    intro acc hacc t ht
    simp only [pySplitWsAux] at ht
    by_cases hd : isPySpace d
    · rw [if_pos hd] at ht
      by_cases h : acc.isEmpty
      · rw [if_pos h] at ht
        exact ih [] (by simp) t ht
      · rw [if_neg h] at ht
        rcases List.mem_cons.mp ht with hh | hh
        · subst hh
          refine ⟨?_, ?_⟩
          · intro hnil
            exact h (by simpa [List.isEmpty_iff] using
              (List.reverse_eq_nil_iff.mp hnil))
          · intro c hc
            exact hacc c (List.mem_reverse.mp hc)
        · exact ih [] (by simp) t hh
    · rw [if_neg hd] at ht
      refine ih (d :: acc) ?_ t ht
      intro c hc
      rcases List.mem_cons.mp hc with hh | hh
      · subst hh; simpa using hd
      · exact hacc c hh

lemma pySplitWs_good (l : List Char) :
    ∀ t ∈ pySplitWs l, t ≠ [] ∧ ∀ c ∈ t, isPySpace c = false :=
  pySplitWsAux_good l [] (by simp)

lemma joinSpace_head (ts : List (List Char)) (hne : ts ≠ [])
    (hgood : ∀ t ∈ ts, t ≠ [] ∧ ∀ c ∈ t, isPySpace c = false) :
    ∃ d m, joinSpace ts = d :: m ∧ isPySpace d = false := by
  cases ts with
  | nil => exact absurd rfl hne
  | cons t rest =>
    have hT := hgood t (by simp)
    obtain ⟨c, t', hct⟩ : ∃ c t', t = c :: t' := by
      cases t with
      | nil => exact absurd rfl hT.1
      | cons c t' => exact ⟨c, t', rfl⟩
    have hc : isPySpace c = false := hT.2 c (by simp [hct])
    cases rest with
    | nil => exact ⟨c, t', by simp [joinSpace, hct], hc⟩
    | cons u us =>
      refine ⟨c, t' ++ ' ' :: joinSpace (u :: us), ?_, hc⟩
      simp [joinSpace, hct]

lemma joinSpace_last (ts : List (List Char)) (hne : ts ≠ [])
    (hgood : ∀ t ∈ ts, t ≠ [] ∧ ∀ c ∈ t, isPySpace c = false) :
    ∃ d m, (joinSpace ts).reverse = d :: m ∧ isPySpace d = false := by
  induction ts with
  | nil => exact absurd rfl hne
  | cons t rest ih =>
    cases rest with
    | nil =>
      have hT := hgood t (by simp)
      obtain ⟨c, t', hct⟩ : ∃ c t', t.reverse = c :: t' := by
        cases hr : t.reverse with
        | nil => exact absurd (List.reverse_eq_nil_iff.mp hr) hT.1
        | cons c t' => exact ⟨c, t', rfl⟩
      refine ⟨c, t', by simpa [joinSpace] using hct, ?_⟩
      exact hT.2 c (List.mem_reverse.mp (by simp [hct]))
    | cons u us =>
      rcases ih (by simp) (fun t ht => hgood t (by simp [ht])) with ⟨d, m, hdm, hd⟩
      refine ⟨d, m ++ ' ' :: t.reverse, ?_, hd⟩
      show (t ++ ' ' :: joinSpace (u :: us)).reverse = _
      rw [List.reverse_append]
      simp only [List.reverse_cons]
      rw [hdm]
      simp

lemma pyStrip_eq_self (l : List Char)
    (hh : ∃ d m, l = d :: m ∧ isPySpace d = false)
    (hl : ∃ d m, l.reverse = d :: m ∧ isPySpace d = false) :
    pyStrip l = l := by
  rcases hh with ⟨d, m, hdm, hd⟩
  rcases hl with ⟨e, p, hep, he⟩
  have h1 : dropLeadWs l = l := by
    rw [hdm]
    simp [dropLeadWs, List.dropWhile_cons, hd]
  rw [pyStrip, h1, dropTrailWs, hep]
  rw [List.dropWhile_cons]
  simp only [he, Bool.false_eq_true, if_false]
  rw [← hep, List.reverse_reverse]

lemma pyStrip_joinSpace (ts : List (List Char)) (hne : ts ≠ [])
    (hgood : ∀ t ∈ ts, t ≠ [] ∧ ∀ c ∈ t, isPySpace c = false) :
    pyStrip (joinSpace ts) = joinSpace ts :=
  pyStrip_eq_self _ (by
      rcases joinSpace_head ts hne hgood with ⟨d, m, h1, h2⟩
      exact ⟨d, m, h1, h2⟩)
    (by
      rcases joinSpace_last ts hne hgood with ⟨d, m, h1, h2⟩
      exact ⟨d, m, h1, h2⟩)

lemma joinSpace_ne_nil (ts : List (List Char)) (hne : ts ≠ [])
    (hgood : ∀ t ∈ ts, t ≠ [] ∧ ∀ c ∈ t, isPySpace c = false) :
    joinSpace ts ≠ [] := by
  rcases joinSpace_head ts hne hgood with ⟨d, m, h1, _⟩
  simp [h1]

lemma pyFindChar_eq_none (c : Char) :
    ∀ l : List Char, (∀ d ∈ l, d ≠ c) → pyFindChar l c = none := by
  intro l
  induction l with
  | nil => intro _; rfl
  | cons d rest ih =>
    intro h
    simp only [pyFindChar]
    rw [if_neg (h d (by simp)), ih (fun e he => h e (by simp [he]))]
    rfl

/-- CLAIM C6 — For every UDP message body without `{`: fewer than two
whitespace tokens are rejected (`None`); exactly two tokens give
`(topic, payload)` directly; with more than two tokens the greedy topic
rule applies — the topic is the tokens up to the stop index (the first
index before the last token whose token neither contains `/` nor is
flanked by two slash-containing tokens), and everything from the stop
index onward is the payload. -/
theorem C6_udp_greedy_split (cmd rest : List Char)
    (hb : ∀ c ∈ rest, c ≠ '{') :
    ((pySplitWs rest).length < 2 → parseBody cmd rest = none) ∧
    ((pySplitWs rest).length = 2 → parseBody cmd rest =
      some (⟨cmd⟩, ⟨(pySplitWs rest).getD 0 []⟩, ⟨(pySplitWs rest).getD 1 []⟩)) ∧
    (2 < (pySplitWs rest).length → parseBody cmd rest =
      some (⟨cmd⟩,
        ⟨joinSpace ((pySplitWs rest).take (greedyStop (pySplitWs rest)))⟩,
        ⟨joinSpace ((pySplitWs rest).drop (greedyStop (pySplitWs rest)))⟩)) := by
  have hfind := pyFindChar_eq_none '{' rest hb
  refine ⟨?_, ?_, ?_⟩
  · intro h
    simp only [parseBody, hfind]
    rw [if_pos h]
  · intro h
    simp only [parseBody, hfind]
    rw [if_neg (by omega), if_pos h]
  · intro h
    simp only [parseBody, hfind]
    rw [if_neg (by omega), if_neg (by omega)]
    set tokens := pySplitWs rest with htok
    set n := tokens.length with hn
    have hgood := pySplitWs_good rest
    have hloop := greedyLoop_eq tokens n rfl n 1 [tokens.getD 0 []] (by omega)
    set stop := greedyStopAux tokens n n 1 with hstopdef
    have hstop_ge : 1 ≤ stop := greedyStopAux_ge tokens n n 1
    have hstop_le : stop ≤ n - 1 := greedyStopAux_le tokens n n 1 (by omega)
    have hfront : [tokens.getD 0 []] ++ (tokens.drop 1).take (stop - 1) =
        tokens.take stop := by
      have hdrop0 : tokens.drop 0 = tokens.getD 0 [] :: tokens.drop 1 :=
        drop_eq_getD_cons tokens 0 (by omega)
      have h0 : tokens.take stop = (tokens.drop 0).take stop := by simp
      rw [h0, hdrop0]
      have hs : stop = (stop - 1) + 1 := by omega
      rw [hs, List.take_succ_cons]
      simp
    have hgood_take : ∀ t ∈ tokens.take stop,
        t ≠ [] ∧ ∀ c ∈ t, isPySpace c = false :=
      fun t ht => hgood t (List.take_subset _ _ ht)
    have hgood_drop : ∀ t ∈ tokens.drop stop,
        t ≠ [] ∧ ∀ c ∈ t, isPySpace c = false :=
      fun t ht => hgood t (List.drop_subset _ _ ht)
    have hne_take : tokens.take stop ≠ [] := by
      intro hnil
      have hlen := congrArg List.length hnil
      rw [List.length_take] at hlen
      simp only [List.length_nil] at hlen
      rw [← hn] at hlen
      omega
    have hne_drop : tokens.drop stop ≠ [] := by
      intro hnil
      have hlen := congrArg List.length hnil
      rw [List.length_drop] at hlen
      simp only [List.length_nil] at hlen
      rw [← hn] at hlen
      omega
    have hstrip_t := pyStrip_joinSpace _ hne_take hgood_take
    have hstrip_p := pyStrip_joinSpace _ hne_drop hgood_drop
    have hempty_t : (joinSpace (tokens.take stop)).isEmpty = false := by
      rcases joinSpace_head _ hne_take hgood_take with ⟨d, m, h1, _⟩
      simp [h1]
    have hempty_p : (joinSpace (tokens.drop stop)).isEmpty = false := by
      rcases joinSpace_head _ hne_drop hgood_drop with ⟨d, m, h1, _⟩
      simp [h1]
    rw [hloop]
    simp only [hfront, hstrip_t, hstrip_p, hempty_t, hempty_p]
    simp only [Bool.or_self, Bool.false_eq_true, if_false]
    exact congrArg some (by exact rfl)

/-- Witness for C6 at the spec's concrete example:
`"zigbee2mqtt/Rollo Gallerie links/set 100"` parses to the topic
`"zigbee2mqtt/Rollo Gallerie links/set"` and the payload `"100"`. -/
theorem C6_udp_greedy_split_witness :
    parseBody ("publish".data) ("zigbee2mqtt/Rollo Gallerie links/set 100".data) =
      some ("publish", "zigbee2mqtt/Rollo Gallerie links/set", "100") ∧
    parseUdpMessage "zigbee2mqtt/Rollo Gallerie links/set 100" =
      some ("publish", "zigbee2mqtt/Rollo Gallerie links/set", "100") := by
  constructor
  · have h := (C6_udp_greedy_split ("publish".data)
      ("zigbee2mqtt/Rollo Gallerie links/set 100".data) (by decide)).2.2
      (by decide)
    rw [h]
    decide
  · decide

/-! ## Whitelist sync: sps0.LoxCC decode (claims C7, C8)

Embedding of `miniserver_sync.load_miniserver_config` from the point
where the `sps0.LoxCC` archive entry content is in hand (the FTP fetch
and the ZIP container are external I/O). Bytes are `Nat` values `< 256`;
`struct.unpack` on a short slice raises `struct.error`, modelled as
`none`; Python slice reads (`data[i:j]`) clamp silently. -/

/-- Little-endian 32-bit read at offset `i` (Python `struct.unpack('<L')`
semantics on an in-range slice). -/
def le4 (l : List Nat) (i : Nat) : Nat :=
  l.getD i 0 + 256 * l.getD (i + 1) 0 + 65536 * l.getD (i + 2) 0 +
    16777216 * l.getD (i + 3) 0

/-- The back-reference slice of one copy step: Python
`resultStr[-bytesBack:]` when `-bytesBack+1 == 0`, otherwise
`resultStr[-bytesBack:-bytesBack+1]` with Python's negative-index
clamping (`bytesBack = 0` degenerates to `resultStr[0:1]`; a reach
beyond the start yields the empty slice). -/
def backRefSlice (res : List Nat) (bytesBack : Nat) : List Nat :=
  if bytesBack = 1 then res.drop (res.length - 1)
  else if bytesBack = 0 then res.take 1
  else if bytesBack ≤ res.length then (res.drop (res.length - bytesBack)).take 1
  else []

/-- The `while bytesBackCopied > 0` copy loop: one byte is appended per
iteration, re-reading the growing output (self-overlapping copies). -/
def backCopy (res : List Nat) (bytesBack : Nat) : Nat → List Nat
  | 0 => res
  | c + 1 => backCopy (res ++ backRefSlice res bytesBack) bytesBack c

/-- The `while True` length-extension loop (`0xFF` continuation): adds
`data[index]` to the accumulator, advances, and stops on a byte other
than `0xFF`; an out-of-range read is an `IndexError`/`struct.error`
(`none`). `fuel ≥ data.length` always suffices. -/
def extLoop (data : List Nat) : Nat → Nat → Nat → Option (Nat × Nat)
  | 0, _, _ => none
  | fuel + 1, i, acc =>
    match data.get? i with
    | Option.none => none
    | some b =>
      if b = 0xFF then extLoop data fuel (i + 1) (acc + b)
      else some (acc + b, i + 1)

/-- The legacy nibble decompression loop of `load_miniserver_config`
(source lines 66–107). Each outer iteration advances `index` by at least
one, so `fuel = data.length + 1` always suffices; the wrapper passes
that, making the fuel-exhausted branch unreachable. -/
def decompressLoop (data : List Nat) : Nat → Nat → List Nat → Option (List Nat)
  | 0, i, res => if i < data.length then none else some res
  | fuel + 1, i, res =>
    if i < data.length then
      let byte := data.getD i 0
      let i1 := i + 1
      let copyBytes0 := byte >>> 4
      let lit := byte &&& 0xF
      match (if copyBytes0 = 15 then extLoop data (data.length + 1) i1 copyBytes0
             else some (copyBytes0, i1)) with
      | Option.none => none
      | some (copyBytes, i2) =>
        let res1 := if copyBytes > 0 then res ++ (data.drop i2).take copyBytes else res
        let i3 := if copyBytes > 0 then i2 + copyBytes else i2
        if i3 ≥ data.length then some res1
        else
          if i3 + 2 ≤ data.length then
            let bytesBack := data.getD i3 0 + 256 * data.getD (i3 + 1) 0
            let i4 := i3 + 2
            match (if lit = 15 then extLoop data (data.length + 1) i4 (4 + lit)
                   else some (4 + lit, i4)) with
            | Option.none => none
            | some (bbc, i5) => decompressLoop data fuel i5 (backCopy res1 bytesBack bbc)
          else none
    else some res

/-- The decompression step applied to the compressed payload. -/
def decompressData (data : List Nat) : Option (List Nat) :=
  decompressLoop data (data.length + 1) 0 []

/-- Standard CRC-32 (`zlib.crc32`, an external library: reflected
polynomial `0xEDB88320`, initial and final XOR `0xFFFFFFFF`). -/
def crc32Bit (c : Nat) : Nat :=
  if c % 2 = 1 then (c / 2) ^^^ 0xEDB88320 else c / 2

def crc32Rounds : Nat → Nat → Nat
  | 0, c => c
  | k + 1, c => crc32Rounds k (crc32Bit c)

def crc32 (l : List Nat) : Nat :=
  (l.foldl (fun c b => crc32Rounds 8 (c ^^^ b)) 0xFFFFFFFF) ^^^ 0xFFFFFFFF

/-- Header parsing of the `sps0.LoxCC` entry: 32-bit little-endian magic
`0xAABBCCEE`, then compressed size, uncompressed size and checksum;
`f.read(compressedSize)` returns at most that many bytes with no length
check. Returns `(compressedSize, uncompressedSize, checksum, data)`. -/
def loxccParse (file : List Nat) : Option (Nat × Nat × Nat × List Nat) :=
  if file.length < 4 then none
  else if le4 file 0 ≠ 0xaabbccee then none
  else
    let rest := file.drop 4
    if rest.length < 12 then none
    else some (le4 rest 0, le4 rest 4, le4 rest 8, (rest.drop 12).take (le4 rest 0))

/-- The full decode of an `sps0.LoxCC` entry: header, decompression,
checksum verification, then the uncompressed-size verification. -/
def loxccDecode (file : List Nat) : Option (List Nat) :=
  match loxccParse file with
  | Option.none => none
  | some (_, us, ck, data) =>
    match decompressData data with
    | Option.none => none
    | some r => if crc32 r ≠ ck then none
                else if r.length ≠ us then none
                else some r

/-! Claim C7: the spec's claimed LZ4 detection. -/

/-- Whether the compressed payload starts with one of the LZ4 magics the
spec names: `0x184D2204`, `0x184C2102`, or a skippable-frame magic in
`0x184D2A50..0x184D2A5F` (little-endian leading bytes). -/
def hasLZ4Magic (data : List Nat) : Bool :=
  if data.length < 4 then false
  else
    let m := le4 data 0
    m = 0x184D2204 || m = 0x184C2102 || (0x184D2A50 ≤ m && m ≤ 0x184D2A5F)

/-- Modelled from the spec: LZ4 decoding, restricted to the
skippable-frame subset the spec names explicitly (magic in
`0x184D2A50..0x184D2A5F`, 4-byte little-endian frame size, frame content
skipped, contributing nothing to the output). Compressed LZ4 frames and
blocks are not modelled and decode to `none`; no claim depends on them.
Each frame consumes at least 8 bytes, so `fuel = data.length + 1`
suffices. -/
def lz4SkippableAux : Nat → List Nat → Option (List Nat)
  | _, [] => some []
  | 0, _ :: _ => none
  | fuel + 1, data =>
    if data.length < 8 then none
    else
      let m := le4 data 0
      if 0x184D2A50 ≤ m ∧ m ≤ 0x184D2A5F then
        let size := le4 data 4
        if 8 + size ≤ data.length then lz4SkippableAux fuel (data.drop (8 + size))
        else none
      else none

def lz4Decode (data : List Nat) : Option (List Nat) :=
  lz4SkippableAux (data.length + 1) data

/-- Modelled from the spec: the decompression step as the spec claims it
— inspect the leading bytes, decode as LZ4 when an LZ4 magic is present,
fall back to the legacy nibble decoder only when LZ4 headers are
absent. -/
def decompressSpecC7 (data : List Nat) : Option (List Nat) :=
  if hasLZ4Magic data then lz4Decode data else decompressData data

/-- CLAIM C7 (amended) — The code's decompression step never inspects the
leading bytes for LZ4 magics: it applies the legacy nibble decoder
unconditionally. The spec's claimed detect-and-dispatch behavior
coincides with the code exactly on payloads without an LZ4 magic. -/
theorem C7_no_lz4_detection (data : List Nat)
    (h : hasLZ4Magic data = false) :
    decompressData data = decompressSpecC7 data := by
  simp [decompressSpecC7, h]

/-- Witness for C7 at a concrete payload without LZ4 magic. -/
theorem C7_no_lz4_detection_witness :
    hasLZ4Magic [0x10] = false ∧
    decompressData [0x10] = decompressSpecC7 [0x10] :=
  ⟨by decide, C7_no_lz4_detection [0x10] (by decide)⟩

/-- Counterexample to C7 as stated: the payload
`[0x50, 0x2A, 0x4D, 0x18, 0, 0, 0, 0]` is a complete LZ4 skippable frame
(magic `0x184D2A50`, size 0), whose LZ4 decoding is empty; the code runs
the legacy nibble decoder on it and produces nine bytes instead. -/
theorem C7_counterexample :
    hasLZ4Magic [0x50, 0x2A, 0x4D, 0x18, 0, 0, 0, 0] = true ∧
    decompressSpecC7 [0x50, 0x2A, 0x4D, 0x18, 0, 0, 0, 0] = some [] ∧
    decompressData [0x50, 0x2A, 0x4D, 0x18, 0, 0, 0, 0] =
      some [0x2A, 0x4D, 0x18, 0, 0, 0x2A, 0x2A, 0x2A, 0x2A] ∧
    decompressData [0x50, 0x2A, 0x4D, 0x18, 0, 0, 0, 0] ≠
      decompressSpecC7 [0x50, 0x2A, 0x4D, 0x18, 0, 0, 0, 0] := by
  refine ⟨by decide, by decide, by decide, by decide⟩

/-! Claim C8: failure keeps the previous whitelist. -/

/-- The two whitelist copies `main.handle_miniserver_sync` manages: the
one in `global_config.topics.topic_whitelist` and the one pushed into
the data processor. -/
structure RelayWhitelistState where
  configWhitelist : List String
  processorWhitelist : List String
  deriving DecidableEq, Repr

/-- `main.handle_miniserver_sync`, from the `sps0.LoxCC` bytes onward:
on success both whitelists become the extracted inputs; on any failure
both are restored to the `initial_whitelist` copy taken from the config
at entry. `extract` stands for `extract_inputs` (lxml XML parsing, an
external library; `none` models a raised parse error). -/
def handleMiniserverSync (syncEnabled : Bool)
    (extract : List Nat → Option (List String))
    (st : RelayWhitelistState) (file : List Nat) : RelayWhitelistState :=
  if !syncEnabled then st
  else
    match (match loxccDecode file with
           | Option.none => none
           | some xmlBytes => extract xmlBytes) with
    | some inputs => ⟨inputs, inputs⟩
    | Option.none => ⟨st.configWhitelist, st.configWhitelist⟩

/-- CLAIM C8 — If the CRC32 of the decompressed data differs from the
header checksum (or its length differs from the header's uncompressed
size), the sync fails and the whitelist in effect afterwards is exactly
the whitelist in effect before the sync attempt. -/
theorem C8_checksum_mismatch_keeps_whitelist (en : Bool)
    (extract : List Nat → Option (List String)) (st : RelayWhitelistState)
    (file : List Nat) (cs us ck : Nat) (data r : List Nat)
    (hparse : loxccParse file = some (cs, us, ck, data))
    (hdec : decompressData data = some r)
    (hbad : crc32 r ≠ ck ∨ r.length ≠ us)
    (hsync : st.processorWhitelist = st.configWhitelist) :
    handleMiniserverSync en extract st file = st := by
  have hdecode : loxccDecode file = none := by
    simp only [loxccDecode, hparse, hdec]
    rcases hbad with hck | hus
    · rw [if_pos hck]
    · by_cases hck : crc32 r ≠ ck
      · rw [if_pos hck]
      · rw [if_neg hck, if_pos hus]
  cases en with
  | false => rfl
  | true =>
    rw [handleMiniserverSync, hdecode]
    cases st with
    | mk c p =>
      simp only [RelayWhitelistState.mk.injEq] at hsync ⊢
      simp [hsync]

/-- Witness for C8: a 17-byte archive whose header is well-formed
(magic `0xAABBCCEE`, compressed size 1, uncompressed size 0, checksum 1)
and whose payload decompresses to the empty output with CRC32 `0`, which
mismatches the stored checksum `1`; the whitelist `["old"]` survives. -/
theorem C8_checksum_mismatch_keeps_whitelist_witness :
    handleMiniserverSync true (fun _ => some ["new"]) ⟨["old"], ["old"]⟩
      [0xEE, 0xCC, 0xBB, 0xAA, 1, 0, 0, 0, 0, 0, 0, 0, 1, 0, 0, 0, 0x10] =
      ⟨["old"], ["old"]⟩ :=
  C8_checksum_mismatch_keeps_whitelist true (fun _ => some ["new"])
    ⟨["old"], ["old"]⟩
    [0xEE, 0xCC, 0xBB, 0xAA, 1, 0, 0, 0, 0, 0, 0, 0, 1, 0, 0, 0, 0x10]
    1 0 1 [0x10] [] (by decide) (by decide) (Or.inl (by decide)) rfl

/-! ## Configuration update (claim C10)

Embedding of `config.Config.update_field` and `_get_field_info`. The
configuration is an association of section names to field assignments;
`savedFile` models the on-disk `config.toml` contents (`save_config`
replaces it). Update values arriving over the control plane are strings
or lists of strings — the domain the configuration schema admits for its
list/set fields. Where the source runs `list(set(...))` (whose order
CPython leaves unspecified), the model keeps first-occurrence order. -/

inductive CfgVal where
  | vStr (s : String)
  | vInt (n : Int)
  | vBool (b : Bool)
  | vList (l : List String)
  | vSet (l : List String)
  | vNone
  deriving DecidableEq, Repr

inductive CfgUpd where
  | uStr (s : String)
  | uList (l : List String)
  deriving DecidableEq, Repr

inductive ListMode where
  | set
  | add
  | remove
  deriving DecidableEq, Repr

structure ConfigState where
  sections : List (String × List (String × CfgVal))
  savedFile : Option (List (String × List (String × CfgVal)))
  deriving DecidableEq, Repr

/-- `Config._map_fields_to_sections()`: every dataclass field, mapped to
its section, iterating sections in `ConfigSection` order and fields in
declaration order. -/
def fieldMappings : List (String × String) :=
  [("log_level", "general"), ("base_topic", "general"), ("cache_size", "general"),
   ("host", "broker"), ("port", "broker"), ("user", "broker"),
   ("password", "broker"), ("client_id", "broker"),
   ("miniserver_ip", "miniserver"), ("miniserver_port", "miniserver"),
   ("miniserver_user", "miniserver"), ("miniserver_pass", "miniserver"),
   ("miniserver_max_parallel_connections", "miniserver"),
   ("sync_with_miniserver", "miniserver"), ("use_websocket", "miniserver"),
   ("subscriptions", "topics"), ("subscription_filters", "topics"),
   ("topic_whitelist", "topics"), ("do_not_forward", "topics"),
   ("expand_json", "processing"), ("convert_booleans", "processing"),
   ("udp_in_port", "udp"),
   ("publish_processed_topics", "debug"), ("publish_forwarded_topics", "debug"),
   ("mock_ip", "debug"), ("enable_mock", "debug")]

/-- `getattr(getattr(self._config, section), field)`. -/
def getField (st : ConfigState) (sec field : String) : CfgVal :=
  (((st.sections.lookup sec).getD []).lookup field).getD .vNone

/-- `setattr` on the section dataclass: replace the field's value. -/
def setField (sections : List (String × List (String × CfgVal)))
    (sec field : String) (v : CfgVal) :
    List (String × List (String × CfgVal)) :=
  sections.map fun p =>
    if p.1 = sec then
      (p.1, p.2.map fun q => if q.1 = field then (q.1, v) else q)
    else p

/-- The elements an update value contributes
(`set(value) if isinstance(value, (list, set)) else {value}` and the
list analogue). -/
def updElems : CfgUpd → List String
  | .uStr s => [s]
  | .uList l => l

/-- A plain (non-list) field assignment of the update value. -/
def updAsCfg : CfgUpd → CfgVal
  | .uStr s => .vStr s
  | .uList l => .vList l

/-- First-occurrence deduplication (model of Python's `set(...)`
round-trips; CPython's iteration order there is unspecified). -/
def dedupFirstAux : List String → List String → List String
  | [], _ => []
  | x :: rest, seen =>
    if seen.contains x then dedupFirstAux rest seen
    else x :: dedupFirstAux rest (x :: seen)

def dedupFirst (l : List String) : List String := dedupFirstAux l []

/-- The list/set branch of `update_field`. -/
def applyListLogic (cur : CfgVal) (v : CfgUpd) (mode : ListMode) : CfgVal :=
  match cur with
  | .vSet curl =>
    match mode with
    | .set => .vSet (dedupFirst (updElems v))
    | .add => .vSet (dedupFirst (curl ++ updElems v))
    | .remove => .vSet (curl.filter (fun x => !(updElems v).contains x))
  | .vList curl =>
    match mode with
    | .set => .vList (updElems v)
    | .add => .vList (dedupFirst (curl ++ updElems v))
    | .remove => .vList (curl.filter (fun x => !(updElems v).contains x))
  | _ => updAsCfg v

inductive UpdateResult where
  | ok (st : ConfigState)
  | valueError (st : ConfigState)
  deriving DecidableEq, Repr

/-- `Config.update_field`: `_get_field_info` raises `ValueError` for a
field missing from `field_mappings` — before `getattr`, before `setattr`
and before `save_config` — so the result carries the state as it stood
at the raise; otherwise the field is assigned (with the list/set-mode
logic) and the configuration file is written. -/
def updateField (st : ConfigState) (fieldName : String) (v : CfgUpd)
    (mode : ListMode) : UpdateResult :=
  match fieldMappings.lookup fieldName with
  | Option.none => .valueError st
  | some sec =>
    let cur := getField st sec fieldName
    let newVal :=
      match cur with
      | .vSet _ => applyListLogic cur v mode
      | .vList _ => applyListLogic cur v mode
      | _ => updAsCfg v
    let sections' := setField st.sections sec fieldName newVal
    .ok ⟨sections', some sections'⟩

/-- The `AppConfig` dataclass defaults, with no file written yet. -/
def defaultConfigState : ConfigState :=
  ⟨[("general", [("log_level", .vStr "INFO"), ("base_topic", .vStr "myrelay/"),
      ("cache_size", .vInt 100000)]),
    ("broker", [("host", .vStr "localhost"), ("port", .vInt 1883),
      ("user", .vNone), ("password", .vNone),
      ("client_id", .vStr "loxmqttrelay")]),
    ("miniserver", [("miniserver_ip", .vStr "127.0.0.1"),
      ("miniserver_port", .vInt 80), ("miniserver_user", .vStr ""),
      ("miniserver_pass", .vStr ""),
      ("miniserver_max_parallel_connections", .vInt 5),
      ("sync_with_miniserver", .vBool true), ("use_websocket", .vBool true)]),
    ("topics", [("subscriptions", .vList []), ("subscription_filters", .vList []),
      ("topic_whitelist", .vSet []), ("do_not_forward", .vList [])]),
    ("processing", [("expand_json", .vBool true),
      ("convert_booleans", .vBool true)]),
    ("udp", [("udp_in_port", .vInt 11884)]),
    ("debug", [("publish_processed_topics", .vBool false),
      ("publish_forwarded_topics", .vBool false), ("mock_ip", .vStr ""),
      ("enable_mock", .vBool false)])],
   Option.none⟩

/-- CLAIM C10 — For every field name that belongs to no configuration
section, `update_field` raises `ValueError` before modifying any field
and before writing the configuration file: the resulting state (both the
in-memory configuration and the saved file) is exactly the input
state. -/
theorem C10_unknown_field_raises (st : ConfigState) (name : String)
    (v : CfgUpd) (mode : ListMode)
    (h : fieldMappings.lookup name = none) :
    updateField st name v mode = .valueError st := by
  simp [updateField, h]

/-- Witness for C10: `"nonexistent_field"` is in no section; updating it
on the default configuration raises and leaves the state unchanged. -/
theorem C10_unknown_field_raises_witness :
    updateField defaultConfigState "nonexistent_field" (.uStr "x") .set =
      .valueError defaultConfigState :=
  C10_unknown_field_raises defaultConfigState "nonexistent_field"
    (.uStr "x") .set (by decide)

end LoxRelay
